import Mathlib

/-!
# A verification development for the rygit storage-and-diff engine

Shallow embedding of the core of the `rygit` version-control engine:

* the codec (`compress` / `decompress`, `src/utils.rs`),
* the content hash and blob/tree/commit serialization,
* the object-store write pattern (`src/objects/{blob,tree,commit}.rs`),
* the staging index (`src/index.rs`),
* the tree builder (`src/objects/tree.rs`),
* the status engine (`src/repository_status.rs`),
* the branch checkout materialization (`src/branch.rs`).

Bytes are modelled as `Nat` (with explicit `% 256` / bound hypotheses where
byte-ness matters), paths as lists of components, and the filesystem, the
staging index and the object store as explicit association lists that every
operation threads.
-/

namespace Rygit

/-- A byte, as an unbounded natural; concrete values are kept below 256. -/
abbrev Byte := Nat

/-- A file or directory name, as its bytes (Rust `String`/`OsStr` names
compare byte-wise lexicographically, which is the lexicographic order on
`List Byte`). -/
abbrev Name := List Byte

/-- A filesystem path, as its list of name components relative to the
repository root (the root itself is `[]`); Rust's `Path::cmp` compares
component-wise, which is the lexicographic order on `List Name`. -/
abbrev Path := List Name

/-- A content hash: the 20-byte digest produced by `hashBytes`. -/
abbrev Hash := List Byte

/-- The `k` big-endian bytes of `n % 256 ^ k` (most significant first). -/
def toBytesBE : Nat → Nat → List Byte
  | 0, _ => []
  | k + 1, n => toBytesBE k (n / 256) ++ [n % 256]

/-- Modelled from the spec: `Hash::of` (src/hash.rs) delegates to the external
`sha1` crate, whose compression function is outside this repository.  The spec
fixes only the boundary: "any cryptographic hash primitive is acceptable but
must be fixed-length and collision-resistant enough that file equality can be
assumed on hash equality", with a fixed 20-byte digest.  We model it as a
deterministic 20-byte digest of the serialized bytes (an iterated 160-bit
mixing fold). -/
def hashBytes (data : List Byte) : Hash :=
  toBytesBE 20 (data.foldl (fun a b => (a * 131 + b + 1) % 2 ^ 160) 5381)

/-- The UTF-8/ASCII bytes of a string (all strings serialized by the engine
are ASCII in the model; `Char.toNat` is the scalar value). -/
def strBytes (s : String) : List Byte :=
  s.data.map Char.toNat

/-- Digit-accumulating loop of the decimal rendering; the fuel is the value
itself plus one, which always exceeds the digit count. -/
def natDecimalBytesGo : Nat → Nat → List Byte → List Byte
  | 0, _, acc => acc
  | fuel + 1, n, acc =>
    if n < 10 then (48 + n) :: acc
    else natDecimalBytesGo fuel (n / 10) ((48 + n % 10) :: acc)

/-- The ASCII bytes of the decimal rendering of `n` (Rust `format!("{}", n)`). -/
def natDecimalBytes (n : Nat) : List Byte :=
  natDecimalBytesGo (n + 1) n []

/-- The ASCII bytes of the decimal rendering of a signed value
(Rust `format!("{}", i)` for `i64`). -/
def intDecimalBytes (i : Int) : List Byte :=
  if i < 0 then 45 :: natDecimalBytes i.natAbs else natDecimalBytes i.natAbs

/-! ## Codec (`compress` / `decompress`, src/utils.rs, claim C8)

Modelled from the spec: `compress` and `decompress` (src/utils.rs, re-exported
as the crate's `compression` module used by tree.rs/commit.rs) delegate to the
external `flate2` crate's `ZlibEncoder`/`ZlibDecoder`; the zlib stream
implementation is outside this repository.  The spec fixes the boundary: "a
generic reversible byte-stream transform", producing a "zlib-or-equivalent-
compressed object body".  We model the zlib container exactly at stored-block
level: the two-byte zlib header, a sequence of DEFLATE stored blocks (a BFINAL
byte, the 16-bit little-endian LEN and its ones-complement NLEN, then LEN raw
bytes), and the big-endian Adler-32 checksum of the payload. -/

/-- The Adler-32 modulus. -/
def adlerMod : Nat := 65521

/-- One step of the Adler-32 state update. -/
def adlerStep : Nat × Nat → Byte → Nat × Nat
  | (a, b), c =>
    let a' := (a + c) % adlerMod
    (a', (b + a') % adlerMod)

/-- The Adler-32 checksum of a byte sequence. -/
def adler32 (data : List Byte) : Nat :=
  let s := data.foldl adlerStep (1, 0)
  s.2 * 65536 + s.1

/-- The DEFLATE stored-block encoding of a payload: bounded 65535-byte chunks,
each preceded by a BFINAL flag byte, LEN (little-endian) and NLEN = 65535 - LEN
(little-endian). -/
def storedBlocks (data : List Byte) : List Byte :=
  if h : data.length ≤ 65535 then
    1 :: data.length % 256 :: data.length / 256 ::
      (65535 - data.length) % 256 :: (65535 - data.length) / 256 :: data
  else
    0 :: 255 :: 255 :: 0 :: 0 :: (data.take 65535 ++ storedBlocks (data.drop 65535))
termination_by data.length
decreasing_by simp only [List.length_drop]; omega

/-- `compress` (src/utils.rs): the zlib container around the stored-block
stream of the input, with the Adler-32 trailer. -/
def compress (data : List Byte) : List Byte :=
  120 :: 156 :: (storedBlocks data ++ toBytesBE 4 (adler32 data))

/-- Inflate a stored-block stream: returns the payload and the bytes following
the final block, or `none` on a malformed stream. -/
def inflateStored (l : List Byte) : Option (List Byte × List Byte) :=
  match l with
  | bfinal :: l0 :: l1 :: n0 :: n1 :: rest =>
    if h : l0 + 256 * l1 + (n0 + 256 * n1) = 65535 ∧ l0 + 256 * l1 ≤ rest.length then
      if bfinal = 0 then
        match inflateStored (rest.drop (l0 + 256 * l1)) with
        | some (tail, r) => some (rest.take (l0 + 256 * l1) ++ tail, r)
        | none => none
      else if bfinal = 1 then
        some (rest.take (l0 + 256 * l1), rest.drop (l0 + 256 * l1))
      else none
    else none
  | _ => none
termination_by l.length
decreasing_by simp only [List.length_drop, List.length_cons]; omega

/-- `decompress` (src/utils.rs): checks the zlib header, inflates the block
stream, and verifies the Adler-32 trailer.  Fallible, as in the source. -/
def decompress (l : List Byte) : Option (List Byte) :=
  match l with
  | 120 :: 156 :: rest =>
    match inflateStored rest with
    | some (payload, trailer) =>
      if trailer = toBytesBE 4 (adler32 payload) then some payload else none
    | none => none
  | _ => none

/-! ## Tree serialization (src/objects/tree.rs) and determinism (claim C7) -/

/-- `EntryMode` (src/objects/tree.rs): `File` or `Directory`. -/
inductive EntryMode where
  | File
  | Directory
deriving DecidableEq

/-- The strum serialization of `EntryMode` (src/objects/tree.rs):
`"100644"` for files, `"40000"` for directories. -/
def EntryMode.render : EntryMode → List Byte
  | .File => strBytes "100644"
  | .Directory => strBytes "40000"

/-- A tree entry as it is serialized: its mode, its name bytes, and the
20-byte hash of the child object (the source's `TreeEntry` keys serialization
on exactly these three fields of its `object` and `name`). -/
structure STreeEntry where
  mode : EntryMode
  name : Name
  hash : Hash
deriving DecidableEq

/-- One record of a serialized tree body: `"<mode> <name>\0<20-byte-hash>"`
(the `entry_header` plus hash bytes in `serialize`, src/objects/tree.rs). -/
def entryRecord (e : STreeEntry) : List Byte :=
  e.mode.render ++ [32] ++ e.name ++ [0] ++ e.hash

/-- `serialize` (src/objects/tree.rs): `"tree <body-length>\0"` followed by
the concatenated entry records. -/
def serializeTree (entries : List STreeEntry) : List Byte :=
  strBytes "tree " ++ natDecimalBytes (entries.map entryRecord).flatten.length ++
    [0] ++ (entries.map entryRecord).flatten

/-- The name-comparison used by `Tree::create_recursive`'s
`entries.sort_by(|a, b| a.name.cmp(&b.name))`. -/
def nameLe (a b : STreeEntry) : Prop := a.name ≤ b.name

instance : DecidableRel nameLe := fun a b =>
  inferInstanceAs (Decidable (a.name ≤ b.name))

instance nameLeTotal : IsTotal STreeEntry nameLe := ⟨fun a b => le_total a.name b.name⟩

instance nameLeTrans : IsTrans STreeEntry nameLe := ⟨fun _ _ _ h₁ h₂ => le_trans h₁ h₂⟩

instance nameLtAntisymm : IsAntisymm STreeEntry (fun a b => a.name < b.name) :=
  ⟨fun _ _ h₁ h₂ => (lt_asymm h₁ h₂).elim⟩

/-- The sort step of `Tree::create_recursive` (src/objects/tree.rs):
entries ordered by name before serialization. -/
def sortEntriesByName (entries : List STreeEntry) : List STreeEntry :=
  entries.insertionSort nameLe

/-- The hash under which a built tree is stored: the digest of its
serialized form. -/
def treeHash (entries : List STreeEntry) : Hash :=
  hashBytes (serializeTree entries)

/-! ## Status engine (src/repository_status.rs, claims C2 and C3)

`RepositoryStatus::load` builds three path→hash maps — `committed` (the
flattened committed tree, empty without commits), `staged` (the index
entries) and `working` (hashes of the on-disk files) — and classifies paths
by iterating the three maps.  The map construction is filesystem I/O; the
embedding takes the three maps as association lists (`HashMap` semantics:
unique keys, which the claim theorems assume) and embeds the classification
and sorting, src/repository_status.rs lines 62–126. -/

/-- `FileStatus` (src/repository_status.rs). -/
inductive FileStatus where
  | Deleted
  | Modified
  | Added
deriving DecidableEq

/-- `StatusEntry` (src/repository_status.rs). -/
structure StatusEntry where
  path : Path
  status : FileStatus
deriving DecidableEq

/-- `HashMap::get` over an association list. -/
def lookupPath : List (Path × Hash) → Path → Option Hash
  | [], _ => none
  | (p, h) :: rest, q => if p = q then some h else lookupPath rest q

/-- The path comparison used by the status engine's
`sort_by(|a, b| a.path.cmp(&b.path))`. -/
def entryPathLe (a b : StatusEntry) : Prop := a.path ≤ b.path

instance : DecidableRel entryPathLe := fun a b =>
  inferInstanceAs (Decidable (a.path ≤ b.path))

instance entryPathLeTotal : IsTotal StatusEntry entryPathLe :=
  ⟨fun a b => le_total a.path b.path⟩

instance entryPathLeTrans : IsTrans StatusEntry entryPathLe :=
  ⟨fun _ _ _ h₁ h₂ => le_trans h₁ h₂⟩

/-- `RepositoryStatus` (src/repository_status.rs). -/
structure RepositoryStatus where
  staged_changes : List StatusEntry
  unstaged_changes : List StatusEntry
  untracked_files : List Path
deriving DecidableEq

/-- `RepositoryStatus::load` (src/repository_status.rs lines 62–126): the
three classification loops followed by the three sorts.  Each loop is the
source's `for` over one map pushing the matching `StatusEntry`s, rendered as
a `flatMap` of the pushed entries. -/
def RepositoryStatus.load (committed staged working : List (Path × Hash)) :
    RepositoryStatus :=
  let staged_changes :=
    committed.flatMap (fun cf =>
      (if (lookupPath staged cf.1).isNone then [StatusEntry.mk cf.1 .Deleted] else []) ++
      (if (lookupPath staged cf.1).any (fun h => decide (h ≠ cf.2)) then
        [StatusEntry.mk cf.1 .Modified] else [])) ++
    staged.flatMap (fun sf =>
      if (lookupPath committed sf.1).isNone then [StatusEntry.mk sf.1 .Added] else [])
  let unstaged_changes :=
    staged.flatMap (fun sf =>
      if (lookupPath working sf.1).isNone then [StatusEntry.mk sf.1 .Deleted] else []) ++
    working.flatMap (fun wf =>
      if (lookupPath staged wf.1).any (fun h => decide (h ≠ wf.2)) then
        [StatusEntry.mk wf.1 .Modified] else [])
  let untracked_files :=
    working.flatMap (fun wf =>
      if (lookupPath staged wf.1).isNone then [wf.1] else [])
  { staged_changes := staged_changes.insertionSort entryPathLe
    unstaged_changes := unstaged_changes.insertionSort entryPathLe
    untracked_files := untracked_files.insertionSort (· ≤ ·) }

/-! ## Staging index (src/index.rs, claims C4 and C9)

The filesystem is modelled as an association list from paths to file
contents; a directory exists exactly when some file lies strictly below it
(as observed through the source's `Path::is_dir` / `Path::exists` probes).
The rygit metadata directory is not part of the modelled filesystem, matching
the source's `filter_entry` that skips it on every walk. -/

/-- `Path::is_file` over the modelled filesystem. -/
def isFile (fs : List (Path × List Byte)) (p : Path) : Bool :=
  (lookupPath fs p).isSome

/-- `Path::starts_with`: `d` is a (component) prefix of `q`. -/
def isUnder : Path → Path → Bool
  | [], _ => true
  | _ :: _, [] => false
  | a :: as, b :: bs => if a = b then isUnder as bs else false

/-- `Path::is_dir`: some file lies strictly below the path. -/
def isDir (fs : List (Path × List Byte)) (p : Path) : Bool :=
  fs.any (fun f => isUnder p f.1 && decide (f.1 ≠ p))

/-- `Path::exists`: a file or a directory. -/
def pathExists (fs : List (Path × List Byte)) (p : Path) : Bool :=
  isFile fs p || isDir fs p

/-- `create_blob_contents_from_file` (src/objects/blob.rs): the header
`"blob <byte-length>\0"` followed by the raw file contents. -/
def blobSerialize (contents : List Byte) : List Byte :=
  strBytes "blob " ++ natDecimalBytes contents.length ++ [0] ++ contents

/-- The hash a staged file receives: the digest of its blob serialization
(`Blob::create` hashes the serialized blob of the on-disk contents). -/
def blobHash (contents : List Byte) : Hash :=
  hashBytes (blobSerialize contents)

/-- `IndexFile` (src/index.rs): one staged `(path, hash)` entry. -/
structure IndexFile where
  path : Path
  hash : Hash
deriving DecidableEq

/-- The index `add` failure modes: `NoSuchFile` ("did not match any files")
and an underlying I/O failure (`Blob::create` on an unreadable path). -/
inductive AddError where
  | noSuchFile
  | ioFailure
deriving DecidableEq

/-- Replace the first entry whose path matches, else push at the end —
the source's `files.iter().position(..)` followed by `files[position] = entry`
or `files.push(entry)` (src/index.rs, `Index::add_file`). -/
def upsertEntry : List IndexFile → IndexFile → List IndexFile
  | [], e => [e]
  | f :: rest, e => if f.path = e.path then e :: rest else f :: upsertEntry rest e

/-- Remove the first entry whose path matches — the source's
`files.remove(position)` (src/index.rs, `Index::add_file`). -/
def removeEntry : List IndexFile → Path → List IndexFile
  | [], _ => []
  | f :: rest, p => if f.path = p then rest else f :: removeEntry rest p

/-- `Index::add_file` (src/index.rs lines 63–92): a path that no longer
exists has its entry removed when one exists and is a `NoSuchFile` error
otherwise; an existing file is hashed from its on-disk contents and its
`(path, hash)` entry upserted. -/
def addFile (fs : List (Path × List Byte)) (files : List IndexFile) (p : Path) :
    Except AddError (List IndexFile) :=
  if pathExists fs p = false then
    if files.any (fun f => decide (f.path = p)) then .ok (removeEntry files p)
    else .error .noSuchFile
  else
    match lookupPath fs p with
    | some contents => .ok (upsertEntry files ⟨p, blobHash contents⟩)
    | none => .error .ioFailure

/-- The file paths the `WalkDir` of `Index::add_dir` yields strictly under
`d` (`min_depth(1)`, metadata directory excluded by the model). -/
def walkFiles (fs : List (Path × List Byte)) (d : Path) : List Path :=
  (fs.map Prod.fst).filter (fun q => isUnder d q && decide (q ≠ d))

/-- `Index::add_dir` (src/index.rs lines 95–114): apply `add_file` to every
descendant file.  (The source's `add_recursive` also re-enters `add_dir` for
each descendant directory, re-applying `add_file` to files already visited;
re-adding an unchanged existing file replaces its entry with an identical
one, so the walk's net effect on the entry list is one `add_file` per
descendant file.) -/
def addDir (fs : List (Path × List Byte)) (files : List IndexFile) (d : Path) :
    Except AddError (List IndexFile) :=
  (walkFiles fs d).foldlM (fun acc q => addFile fs acc q) files

/-- `Index::remove_deleted_files` (src/index.rs lines 115–123): retain
entries outside `d`'s subtree unconditionally, and inside it only those whose
path still exists. -/
def removeDeletedFiles (fs : List (Path × List Byte)) (files : List IndexFile)
    (d : Path) : List IndexFile :=
  files.filter (fun f => if isUnder d f.path then pathExists fs f.path else true)

/-- The entry comparison of the source's
`files.sort_by(|a, b| a.path.cmp(&b.path))`. -/
def indexPathLe (a b : IndexFile) : Prop := a.path ≤ b.path

instance : DecidableRel indexPathLe := fun a b =>
  inferInstanceAs (Decidable (a.path ≤ b.path))

instance indexPathLeTotal : IsTotal IndexFile indexPathLe :=
  ⟨fun a b => le_total a.path b.path⟩

instance indexPathLeTrans : IsTrans IndexFile indexPathLe :=
  ⟨fun _ _ _ h₁ h₂ => le_trans h₁ h₂⟩

/-- `Index::add` (src/index.rs lines 45–53): recursive add (directory or
file), the directory prune, and the sort by path that precedes the rewrite.
An error short-circuits before `write`, so the persisted index is untouched
on failure. -/
def indexAdd (fs : List (Path × List Byte)) (files : List IndexFile) (p : Path) :
    Except AddError (List IndexFile) :=
  match (if isDir fs p then addDir fs files p else addFile fs files p) with
  | .error e => .error e
  | .ok files1 =>
    let files2 := if isDir fs p then removeDeletedFiles fs files1 p else files1
    .ok (files2.insertionSort indexPathLe)

/-- The low hex digit of a nibble, as an ASCII byte. -/
def hexDigit (n : Nat) : Byte :=
  if n < 10 then 48 + n else 87 + n

/-- Lowercase hex of a hash (`Hash::to_hex`, src/hash.rs). -/
def hexBytes (h : Hash) : List Byte :=
  h.flatMap (fun b => [hexDigit (b / 16), hexDigit (b % 16)])

/-- A path rendered with `/` separators (`relative_path.display()`). -/
def renderPath : Path → List Byte
  | [] => []
  | [n] => n
  | n :: rest => n ++ [47] ++ renderPath rest

/-- `Index::write` (src/index.rs lines 125–149): the truncate-and-rewritten
index file bytes, one `"<relative-path> <hex-hash>\n"` line per entry. -/
def writeIndex (files : List IndexFile) : List Byte :=
  files.flatMap (fun f => renderPath f.path ++ [32] ++ hexBytes f.hash ++ [10])

/-! ## Branch checkout materialization (src/branch.rs, claim C10) -/

/-- The UTF-8 encoding of a Unicode scalar below 0x800; every `u8 as char`
scalar is below 0x100, so the one- and two-byte forms cover checkout. -/
def utf8Bytes (scalar : Nat) : List Byte :=
  if scalar < 128 then [scalar] else [192 + scalar / 64, 128 + scalar % 64]

/-- `Branch::switch`'s per-entry file materialization (src/branch.rs lines
105–121): every blob body byte is mapped to the `char` of the same scalar
value (`c as char`), the chars are collected into a `String`, and `fs::write`
persists that string's UTF-8 encoding. -/
def switchWrittenBytes (body : List Byte) : List Byte :=
  body.flatMap utf8Bytes

/-! ## Object-store write pattern (claim C5)

The object store is an association list from hashes to the persisted
(compressed) object bytes; an entry present at a hash models an existing file
at `hash.object_path()`. -/

/-- `HashMap`-style lookup over the object store. -/
def storeLookup : List (Hash × List Byte) → Hash → Option (List Byte)
  | [], _ => none
  | (h, d) :: rest, q => if h = q then some d else storeLookup rest q

/-- The dedup-checked persist of `Blob::new` (src/objects/blob.rs): return
early if an object exists at the hash's storage path, else compress and
write.  Yields the hash, the store, and whether a new object file was
written. -/
def blobPersist (store : List (Hash × List Byte)) (serialized : List Byte) :
    Hash × List (Hash × List Byte) × Bool :=
  let h := hashBytes serialized
  if (storeLookup store h).isSome then (h, store, false)
  else (h, (h, compress serialized) :: store, true)

/-- The dedup-checked persist of `Tree::create_recursive`
(src/objects/tree.rs lines 153–160): `if !hash.object_path().exists()`, then
compress and write. -/
def treePersist (store : List (Hash × List Byte)) (serialized : List Byte) :
    Hash × List (Hash × List Byte) × Bool :=
  let h := hashBytes serialized
  if (storeLookup store h).isSome then (h, store, false)
  else (h, (h, compress serialized) :: store, true)

/-- The persist of `Commit::create` (src/objects/commit.rs lines 58–73):
hash, compress, `File::create` and write — with no existence check, so the
object file is (re)written unconditionally. -/
def commitPersist (store : List (Hash × List Byte)) (serialized : List Byte) :
    Hash × List (Hash × List Byte) × Bool :=
  let h := hashBytes serialized
  (h, (h, compress serialized) :: store, true)

/-- `Signature` (src/objects/signature.rs): name, email, timestamp with UTC
offset (seconds east). -/
structure SignatureT where
  name : String
  email : String
  timestampSecs : Int
  offsetSeconds : Int

/-- Two-digit zero-padded decimal (`{:02}`). -/
def pad2 (n : Nat) : List Byte :=
  if n < 10 then 48 :: natDecimalBytes n else natDecimalBytes n

/-- `format_offset` (src/objects/signature.rs): sign, two-digit hours,
two-digit minutes. -/
def formatOffset (offsetSeconds : Int) : List Byte :=
  let sign : Byte := if 0 ≤ offsetSeconds then 43 else 45
  let offsetMinutes := offsetSeconds.natAbs / 60
  sign :: (pad2 (offsetMinutes / 60) ++ pad2 (offsetMinutes % 60))

/-- `Signature::serialize_as` (src/objects/signature.rs):
`"<role> <name> <<email>> <unix-seconds> <±HHMM>"`. -/
def signatureSerialize (kind : List Byte) (sig : SignatureT) : List Byte :=
  kind ++ [32] ++ strBytes sig.name ++ [32, 60] ++ strBytes sig.email ++ [62, 32] ++
    intDecimalBytes sig.timestampSecs ++ [32] ++ formatOffset sig.offsetSeconds

/-- Lines joined by `"\n"` (the source's `Vec::join("\n")`). -/
def joinLines : List (List Byte) → List Byte
  | [] => []
  | [l] => l
  | l :: rest => l ++ [10] ++ joinLines rest

/-- `Commit::serialize` (src/objects/commit.rs): the tree line, parent lines,
author and committer lines, a blank line and the message, behind the
`"commit <byte-length>\0"` header. -/
def commitSerialize (author committer : SignatureT) (parents : List Hash)
    (treeH : Hash) (message : String) : List Byte :=
  let body := joinLines
    ([strBytes "tree " ++ hexBytes treeH] ++
      parents.map (fun p => strBytes "parent " ++ hexBytes p) ++
      [signatureSerialize (strBytes "author") author,
       signatureSerialize (strBytes "committer") committer,
       [], strBytes message])
  strBytes "commit " ++ natDecimalBytes body.length ++ [0] ++ body

/-- The serialize-and-persist section of `Commit::create`
(src/objects/commit.rs lines 58–73). -/
def commitCreateWrite (store : List (Hash × List Byte))
    (author committer : SignatureT) (parents : List Hash) (treeH : Hash)
    (message : String) : Hash × List (Hash × List Byte) × Bool :=
  commitPersist store (commitSerialize author committer parents treeH message)

/-! ## Tree builder (src/objects/tree.rs, claim C1)

`Tree::create_recursive` lists the directory's immediate children with a
`WalkDir` scan of the live filesystem (`min_depth(1).max_depth(1)`, metadata
directory excluded) and builds each child entry with `TreeEntry::create`:
recursion for directories, `Blob::create` — a fresh hash of the on-disk
contents — for files.  The model derives the scan from the modelled
filesystem and bounds the recursion with fuel (one unit per directory level,
so any fuel beyond the tree depth is sufficient). -/

deriving instance DecidableEq for Except

/-- The immediate child names of directory `d` as the filesystem scan
observes them (each distinct next component of a file path under `d`). -/
def childNames (fs : List (Path × List Byte)) (d : Path) : List Name :=
  ((fs.map Prod.fst).filterMap (fun q =>
    if isUnder d q && decide (q ≠ d) then (q.drop d.length).head? else none)).dedup

/-- Tree-builder failure: a child that is neither file nor directory
(the source's `bail!`), or fuel exhaustion (deeper than the fuel bound). -/
inductive BuildErr where
  | notFileOrDir
  | fuelOut
deriving DecidableEq

/-- The tail of `Tree::create_recursive` (src/objects/tree.rs lines
144–160): sort the entries by name, serialize, hash, and dedup-persist. -/
def finishTree (entries : List STreeEntry) (store : List (Hash × List Byte)) :
    (List STreeEntry × Hash) × List (Hash × List Byte) :=
  let sorted := sortEntriesByName entries
  let r := treePersist store (serializeTree sorted)
  ((sorted, r.1), r.2.1)

/-- The per-child loop of `Tree::create_recursive` over the scanned names:
`TreeEntry::create` for each — recursing for directories, `Blob::create`
(hash of the on-disk contents) for files, an error otherwise. -/
def buildDir (fs : List (Path × List Byte)) :
    Nat → Path → List Name → List (Hash × List Byte) →
    Except BuildErr (List STreeEntry × List (Hash × List Byte))
  | _, _, [], store => .ok ([], store)
  | 0, _, _ :: _, _ => .error .fuelOut
  | fuel + 1, d, n :: rest, store =>
    let child := d ++ [n]
    if isDir fs child then
      match buildDir fs fuel child (childNames fs child) store with
      | .error e => .error e
      | .ok (childEntries, store1) =>
        let t := finishTree childEntries store1
        match buildDir fs fuel d rest t.2 with
        | .error e => .error e
        | .ok (entries, store2) => .ok (STreeEntry.mk .Directory n t.1.2 :: entries, store2)
    else
      match lookupPath fs child with
      | some contents =>
        let b := blobPersist store (blobSerialize contents)
        match buildDir fs fuel d rest b.2.1 with
        | .error e => .error e
        | .ok (entries, store1) => .ok (STreeEntry.mk .File n b.1 :: entries, store1)
      | none => .error .notFileOrDir

/-- `Tree::create_recursive` (src/objects/tree.rs lines 124–163) at directory
`d`: scan, build the child entries, then sort/serialize/persist. -/
def createRecursive (fs : List (Path × List Byte)) (fuel : Nat) (d : Path)
    (store : List (Hash × List Byte)) :
    Except BuildErr ((List STreeEntry × Hash) × List (Hash × List Byte)) :=
  match buildDir fs fuel d (childNames fs d) store with
  | .error e => .error e
  | .ok (entries, store1) => .ok (finishTree entries store1)

/-- `Tree::create(index)` (src/objects/tree.rs): `create_recursive` at the
repository root.  The source threads `index: &Index` through
`create_recursive` and `TreeEntry::create`, but no code path ever reads it —
entries and hashes come from the `WalkDir` scan and `Blob::create` of on-disk
contents alone — so the model takes and ignores the index argument. -/
def treeCreate (fs : List (Path × List Byte)) (index : List IndexFile)
    (fuel : Nat) (store : List (Hash × List Byte)) :
    Except BuildErr ((List STreeEntry × Hash) × List (Hash × List Byte)) :=
  createRecursive fs fuel [] store

/-! ## Tree object parsing (src/objects/tree.rs, claim C6)

`Tree::load` decompresses the object file and then parses: `parse_header`
followed by a `TreeEntry::parse` loop that runs while bytes remain, eagerly
loading each entry's child object.  Parse outcomes distinguish a typed error
(an `Err` propagated by the result convention — `InvalidObjectFormat` in the
spec's vocabulary) from a process abort (the `unwrap` panic in
`TreeEntry::parse`).  Recursion (the entry loop and nested subtree loads) is
fuel-bounded; `fuelOut` marks exhaustion and never occurs at the inputs the
theorems use. -/

/-- A parse outcome: success, a typed error, or a process abort (panic). -/
inductive POutcome (α : Type) where
  | ok (a : α)
  | err
  | panicked
  | fuelOut
deriving DecidableEq

/-- Rust iterator `take_while`: the bytes before the first `stop` byte, and
the remainder after that byte, which the iterator also consumes (everything
is consumed when no `stop` byte occurs). -/
def takeUntilByte (stop : Byte) : List Byte → List Byte × List Byte
  | [] => ([], [])
  | b :: rest =>
    if b = stop then ([], rest)
    else
      let r := takeUntilByte stop rest
      (b :: r.1, r.2)

/-- `EntryMode::from_str` (strum, src/objects/tree.rs): `"100644"` is File,
`"40000"` is Directory, anything else is an error. -/
def modeFromBytes (s : List Byte) : Option EntryMode :=
  if s = strBytes "100644" then some EntryMode.File
  else if s = strBytes "40000" then some EntryMode.Directory
  else none

/-- `parse_header` (src/objects/tree.rs lines 302–315): the label up to the
first space must equal `"tree"` (else a typed error); the length field is
drained up to the NUL without any validation.  Returns the remaining body. -/
def parseHeader (l : List Byte) : Option (List Byte) :=
  let lbl := takeUntilByte 32 l
  if lbl.1 = strBytes "tree" then some (takeUntilByte 0 lbl.2).2 else none

/-- Modelled from the spec: `Blob::load` (called by `TreeEntry::parse` to
resolve a File child) is code of this repository not under src/ — spec §4.3:
locate by storage path, decompress, strip the `"<type> <len>\0"` header, and
fail with a typed InvalidObjectFormat/IO error otherwise.  Returns the body
bytes, `none` on any failure. -/
def blobLoad (store : List (Hash × List Byte)) (h : Hash) : Option (List Byte) :=
  match storeLookup store h with
  | none => none
  | some data =>
    match decompress data with
    | none => none
    | some bytes =>
      let lbl := takeUntilByte 32 bytes
      if lbl.1 = strBytes "blob" then some (takeUntilByte 0 lbl.2).2 else none

/-- The `TreeEntry::parse` loop of `Tree::load` (src/objects/tree.rs lines
81–112 and 253–258): while bytes remain, read the mode token up to a space
(a mismatched token is a typed error), the name up to a NUL (with no
termination check), then exactly 20 hash bytes — `try_into().unwrap()`
panics when fewer remain — and eagerly load the child object (a nested
`Tree::load` for Directory entries, `Blob::load` for File entries). -/
def parseEntriesGo (store : List (Hash × List Byte)) :
    Nat → List Byte → POutcome (List STreeEntry)
  | _, [] => .ok []
  | 0, _ :: _ => .fuelOut
  | fuel + 1, b :: bs =>
    let m := takeUntilByte 32 (b :: bs)
    match modeFromBytes m.1 with
    | none => .err
    | some mode =>
      let nm := takeUntilByte 0 m.2
      if (nm.2.take 20).length = 20 then
        let hashB := nm.2.take 20
        let rest := nm.2.drop 20
        match mode with
        | .File =>
          match blobLoad store hashB with
          | none => .err
          | some _ =>
            match parseEntriesGo store fuel rest with
            | .ok entries => .ok (STreeEntry.mk .File nm.1 hashB :: entries)
            | .err => .err
            | .panicked => .panicked
            | .fuelOut => .fuelOut
        | .Directory =>
          match storeLookup store hashB with
          | none => .err
          | some data =>
            match decompress data with
            | none => .err
            | some bytes =>
              match parseHeader bytes with
              | none => .err
              | some body =>
                match parseEntriesGo store fuel body with
                | .ok _ =>
                  match parseEntriesGo store fuel rest with
                  | .ok entries => .ok (STreeEntry.mk .Directory nm.1 hashB :: entries)
                  | .err => .err
                  | .panicked => .panicked
                  | .fuelOut => .fuelOut
                | .err => .err
                | .panicked => .panicked
                | .fuelOut => .fuelOut
      else .panicked

/-- The post-decompression phase of `Tree::load` (src/objects/tree.rs lines
241–260) on a serialized tree body: `parse_header`, then the entry loop. -/
def treeParse (store : List (Hash × List Byte)) (fuel : Nat)
    (data : List Byte) : POutcome (List STreeEntry) :=
  match parseHeader data with
  | none => .err
  | some body => parseEntriesGo store fuel body

/-- `Tree::load` (src/objects/tree.rs): read the object file at the hash,
decompress, and parse. -/
def treeLoad (store : List (Hash × List Byte)) (fuel : Nat) (h : Hash) :
    POutcome (List STreeEntry) :=
  match storeLookup store h with
  | none => .err
  | some data =>
    match decompress data with
    | none => .err
    | some bytes => treeParse store fuel bytes

/-! ## Lemmas and claim theorems -/

theorem inflateStored_storedBlocks (data suffix : List Byte) :
    inflateStored (storedBlocks data ++ suffix) = some (data, suffix) := by
  induction data using storedBlocks.induct with
  | case1 data h =>
    rw [storedBlocks, dif_pos h]
    have hlen : data.length % 256 + 256 * (data.length / 256) = data.length :=
      Nat.mod_add_div _ _
    simp only [List.cons_append]
    rw [inflateStored]
    have hcond : data.length % 256 + 256 * (data.length / 256) +
        ((65535 - data.length) % 256 + 256 * ((65535 - data.length) / 256)) = 65535 ∧
        data.length % 256 + 256 * (data.length / 256) ≤ (data ++ suffix).length := by
      constructor
      · omega
      · simp only [List.length_append]; omega
    rw [dif_pos hcond]
    rw [if_neg (by decide), if_pos rfl, hlen]
    rw [List.take_left' rfl, List.drop_left' rfl]
  | case2 data h ih =>
    rw [storedBlocks, dif_neg h]
    have htk : (data.take 65535).length = 65535 := by
      rw [List.length_take]; omega
    have harith : 255 + 256 * 255 = 65535 := by norm_num
    simp only [List.cons_append, List.append_assoc]
    rw [inflateStored]
    have hcond : 255 + 256 * 255 + (0 + 256 * 0) = 65535 ∧ 255 + 256 * 255 ≤
        (data.take 65535 ++ (storedBlocks (data.drop 65535) ++ suffix)).length := by
      constructor
      · norm_num
      · simp only [List.length_append, htk]; omega
    rw [dif_pos hcond]
    rw [if_pos rfl, harith]
    rw [List.take_left' htk, List.drop_left' htk, ih]
    simp [List.take_append_drop]

/-- C8: `decompress (compress x) = x` for every byte sequence `x`, the empty
sequence included. -/
theorem codec_roundtrip (x : List Byte) :
    decompress (compress x) = some x := by
  simp [compress, decompress, inflateStored_storedBlocks]

theorem sortEntriesByName_eq_of_perm (l₁ l₂ : List STreeEntry)
    (hperm : List.Perm l₁ l₂) (hnd : (l₁.map STreeEntry.name).Nodup) :
    sortEntriesByName l₁ = sortEntriesByName l₂ := by
  have hp₁ : List.Perm (sortEntriesByName l₁) l₁ := List.perm_insertionSort _ l₁
  have hp₂ : List.Perm (sortEntriesByName l₂) l₂ := List.perm_insertionSort _ l₂
  have hp : List.Perm (sortEntriesByName l₁) (sortEntriesByName l₂) :=
    (hp₁.trans hperm).trans hp₂.symm
  have hstrict : ∀ l : List STreeEntry, (l.map STreeEntry.name).Nodup →
      (sortEntriesByName l).Pairwise (fun a b => a.name < b.name) := by
    intro l hl
    have hsorted : (sortEntriesByName l).Pairwise nameLe :=
      List.sorted_insertionSort _ l
    have hnd' : ((sortEntriesByName l).map STreeEntry.name).Nodup :=
      (((List.perm_insertionSort nameLe l).map STreeEntry.name).nodup_iff).mpr hl
    rw [List.Nodup, List.pairwise_map] at hnd'
    exact (hsorted.and hnd').imp fun h => lt_of_le_of_ne h.1 h.2
  exact List.eq_of_perm_of_sorted hp
    (hstrict l₁ hnd)
    (hstrict l₂ (((hperm.map STreeEntry.name).nodup_iff).mp hnd))

/-- C7: building a Tree from the same (name, hash) entry pairs in any input
order yields an identical serialized byte form and hash, because
`Tree::create_recursive` sorts entries lexicographically by name before
serializing; the built entry list is always name-sorted. -/
theorem tree_determinism (l₁ l₂ : List STreeEntry)
    (hperm : List.Perm l₁ l₂) (hnd : (l₁.map STreeEntry.name).Nodup) :
    serializeTree (sortEntriesByName l₁) = serializeTree (sortEntriesByName l₂) ∧
    treeHash (sortEntriesByName l₁) = treeHash (sortEntriesByName l₂) ∧
    (sortEntriesByName l₁).Pairwise nameLe := by
  rw [sortEntriesByName_eq_of_perm l₁ l₂ hperm hnd]
  exact ⟨rfl, rfl, List.sorted_insertionSort _ l₂⟩

/-- Witness for C7 at a two-element reordering. -/
theorem tree_determinism_witness :
    serializeTree (sortEntriesByName
        [⟨.File, strBytes "b.txt", [1]⟩, ⟨.Directory, strBytes "a", [2]⟩]) =
      serializeTree (sortEntriesByName
        [⟨.Directory, strBytes "a", [2]⟩, ⟨.File, strBytes "b.txt", [1]⟩]) :=
  (tree_determinism _ _ (by decide) (by decide)).1

theorem lookupPath_isSome_iff (m : List (Path × Hash)) (p : Path) :
    (lookupPath m p).isSome = true ↔ ∃ x ∈ m, x.1 = p := by
  induction m with
  | nil => simp [lookupPath]
  | cons x rest ih =>
    obtain ⟨q, h⟩ := x
    by_cases hq : q = p
    · subst hq; simp [lookupPath]
    · simp only [lookupPath, if_neg hq, ih, List.mem_cons]
      constructor
      · rintro ⟨y, hy, rfl⟩; exact ⟨y, Or.inr hy, rfl⟩
      · rintro ⟨y, hy, rfl⟩
        rcases hy with rfl | hy'
        · exact absurd rfl hq
        · exact ⟨y, hy', rfl⟩

theorem lookupPath_eq_none_iff (m : List (Path × Hash)) (p : Path) :
    lookupPath m p = none ↔ ∀ x ∈ m, x.1 ≠ p := by
  induction m with
  | nil => simp [lookupPath]
  | cons y rest ih =>
    obtain ⟨q, h⟩ := y
    by_cases hq : q = p
    · subst hq
      simp only [lookupPath, if_pos rfl]
      constructor
      · intro hc; cases hc
      · intro hall; exact absurd rfl (hall _ (List.mem_cons_self _ _))
    · simp only [lookupPath, if_neg hq, ih, List.mem_cons]
      constructor
      · intro hall x hx
        rcases hx with rfl | hx'
        · exact hq
        · exact hall x hx'
      · intro hall x hx'
        exact hall x (Or.inr hx')

theorem lookupPath_eq_some_of_mem (m : List (Path × Hash))
    (hnd : (m.map Prod.fst).Nodup) (x : Path × Hash) (hx : x ∈ m) :
    lookupPath m x.1 = some x.2 := by
  induction m with
  | nil => cases hx
  | cons y rest ih =>
    rw [List.map_cons, List.nodup_cons] at hnd
    rcases List.mem_cons.mp hx with rfl | hx'
    · simp [lookupPath]
    · obtain ⟨q, h⟩ := y
      have hqx : q ≠ x.1 := fun hc =>
        hnd.1 (hc ▸ List.mem_map.mpr ⟨x, hx', rfl⟩)
      simp only [lookupPath, if_neg hqx]
      exact ih hnd.2 hx'

theorem option_any_eq_true {α : Type} (o : Option α) (f : α → Bool) :
    o.any f = true ↔ ∃ x, o = some x ∧ f x := by
  cases o <;> simp

theorem mem_ite_singleton {β : Type} (c : Prop) [Decidable c] (e a : β) :
    a ∈ (if c then [e] else []) ↔ c ∧ a = e := by
  by_cases h : c <;> simp [h]

theorem load_staged_changes (committed staged working : List (Path × Hash)) :
    (RepositoryStatus.load committed staged working).staged_changes =
      (committed.flatMap (fun cf =>
        (if (lookupPath staged cf.1).isNone then [StatusEntry.mk cf.1 .Deleted] else []) ++
        (if (lookupPath staged cf.1).any (fun h => decide (h ≠ cf.2)) then
          [StatusEntry.mk cf.1 .Modified] else [])) ++
      staged.flatMap (fun sf =>
        if (lookupPath committed sf.1).isNone then [StatusEntry.mk sf.1 .Added] else [])
        ).insertionSort entryPathLe := rfl

theorem load_unstaged_changes (committed staged working : List (Path × Hash)) :
    (RepositoryStatus.load committed staged working).unstaged_changes =
      (staged.flatMap (fun sf =>
        if (lookupPath working sf.1).isNone then [StatusEntry.mk sf.1 .Deleted] else []) ++
      working.flatMap (fun wf =>
        if (lookupPath staged wf.1).any (fun h => decide (h ≠ wf.2)) then
          [StatusEntry.mk wf.1 .Modified] else [])).insertionSort entryPathLe := rfl

theorem load_untracked_files (committed staged working : List (Path × Hash)) :
    (RepositoryStatus.load committed staged working).untracked_files =
      (working.flatMap (fun wf =>
        if (lookupPath staged wf.1).isNone then [wf.1] else [])).insertionSort (· ≤ ·) := rfl

theorem mem_staged_deleted (committed staged working : List (Path × Hash)) (p : Path) :
    StatusEntry.mk p .Deleted ∈ (RepositoryStatus.load committed staged working).staged_changes ↔
      (lookupPath committed p).isSome = true ∧ lookupPath staged p = none := by
  rw [load_staged_changes, (List.perm_insertionSort entryPathLe _).mem_iff]
  simp only [List.mem_append, List.mem_flatMap, mem_ite_singleton, StatusEntry.mk.injEq,
    reduceCtorEq, and_true, and_false, or_false, exists_prop]
  constructor
  · rintro (⟨cf, hcf, hnone, rfl⟩ | ⟨_, h⟩)
    · exact ⟨(lookupPath_isSome_iff ..).mpr ⟨cf, hcf, rfl⟩,
        Option.isNone_iff_eq_none.mp hnone⟩
    · cases h
  · rintro ⟨hsome, hnone⟩
    obtain ⟨cf, hcf, rfl⟩ := (lookupPath_isSome_iff ..).mp hsome
    exact Or.inl ⟨cf, hcf, Option.isNone_iff_eq_none.mpr hnone, rfl⟩

theorem mem_staged_modified (committed staged working : List (Path × Hash))
    (hc : (committed.map Prod.fst).Nodup) (p : Path) :
    StatusEntry.mk p .Modified ∈ (RepositoryStatus.load committed staged working).staged_changes ↔
      ∃ hC hS, lookupPath committed p = some hC ∧ lookupPath staged p = some hS ∧ hS ≠ hC := by
  rw [load_staged_changes, (List.perm_insertionSort entryPathLe _).mem_iff]
  simp only [List.mem_append, List.mem_flatMap, mem_ite_singleton, StatusEntry.mk.injEq,
    reduceCtorEq, and_true, and_false, or_false, false_or, exists_prop, false_and,
    exists_false, List.mem_singleton]
  constructor
  · rintro ⟨cf, hcf, hany, rfl⟩
    obtain ⟨hS, hlS, hne⟩ := (option_any_eq_true ..).mp hany
    exact ⟨cf.2, hS, lookupPath_eq_some_of_mem committed hc cf hcf, hlS,
      of_decide_eq_true hne⟩
  · rintro ⟨hC, hS, hlC, hlS, hne⟩
    obtain ⟨cf, hcf, rfl⟩ := (lookupPath_isSome_iff ..).mp (by rw [hlC]; rfl)
    have h2 : cf.2 = hC := by
      have := lookupPath_eq_some_of_mem committed hc cf hcf
      rw [this] at hlC
      exact Option.some.injEq .. ▸ hlC
    exact ⟨cf, hcf, (option_any_eq_true ..).mpr ⟨hS, hlS, decide_eq_true (h2 ▸ hne)⟩, rfl⟩

theorem mem_staged_added (committed staged working : List (Path × Hash)) (p : Path) :
    StatusEntry.mk p .Added ∈ (RepositoryStatus.load committed staged working).staged_changes ↔
      (lookupPath staged p).isSome = true ∧ lookupPath committed p = none := by
  rw [load_staged_changes, (List.perm_insertionSort entryPathLe _).mem_iff]
  simp only [List.mem_append, List.mem_flatMap, mem_ite_singleton, StatusEntry.mk.injEq,
    reduceCtorEq, and_true, and_false, or_false, false_or, exists_prop, false_and,
    exists_false, or_self]
  constructor
  · rintro ⟨sf, hsf, hnone, rfl⟩
    exact ⟨(lookupPath_isSome_iff ..).mpr ⟨sf, hsf, rfl⟩,
      Option.isNone_iff_eq_none.mp hnone⟩
  · rintro ⟨hsome, hnone⟩
    obtain ⟨sf, hsf, rfl⟩ := (lookupPath_isSome_iff ..).mp hsome
    exact ⟨sf, hsf, Option.isNone_iff_eq_none.mpr hnone, rfl⟩

theorem mem_unstaged_deleted (committed staged working : List (Path × Hash)) (p : Path) :
    StatusEntry.mk p .Deleted ∈
        (RepositoryStatus.load committed staged working).unstaged_changes ↔
      (lookupPath staged p).isSome = true ∧ lookupPath working p = none := by
  rw [load_unstaged_changes, (List.perm_insertionSort entryPathLe _).mem_iff]
  simp only [List.mem_append, List.mem_flatMap, mem_ite_singleton, StatusEntry.mk.injEq,
    reduceCtorEq, and_true, and_false, or_false, false_or, exists_prop, false_and,
    exists_false]
  constructor
  · rintro ⟨sf, hsf, hnone, rfl⟩
    exact ⟨(lookupPath_isSome_iff ..).mpr ⟨sf, hsf, rfl⟩,
      Option.isNone_iff_eq_none.mp hnone⟩
  · rintro ⟨hsome, hnone⟩
    obtain ⟨sf, hsf, rfl⟩ := (lookupPath_isSome_iff ..).mp hsome
    exact ⟨sf, hsf, Option.isNone_iff_eq_none.mpr hnone, rfl⟩

theorem mem_unstaged_modified (committed staged working : List (Path × Hash))
    (hw : (working.map Prod.fst).Nodup) (p : Path) :
    StatusEntry.mk p .Modified ∈
        (RepositoryStatus.load committed staged working).unstaged_changes ↔
      ∃ hW hS, lookupPath working p = some hW ∧ lookupPath staged p = some hS ∧ hS ≠ hW := by
  rw [load_unstaged_changes, (List.perm_insertionSort entryPathLe _).mem_iff]
  simp only [List.mem_append, List.mem_flatMap, mem_ite_singleton, StatusEntry.mk.injEq,
    reduceCtorEq, and_true, and_false, or_false, false_or, exists_prop, false_and,
    exists_false]
  constructor
  · rintro ⟨wf, hwf, hany, rfl⟩
    obtain ⟨hS, hlS, hne⟩ := (option_any_eq_true ..).mp hany
    exact ⟨wf.2, hS, lookupPath_eq_some_of_mem working hw wf hwf, hlS,
      of_decide_eq_true hne⟩
  · rintro ⟨hW, hS, hlW, hlS, hne⟩
    obtain ⟨wf, hwf, rfl⟩ := (lookupPath_isSome_iff ..).mp (by rw [hlW]; rfl)
    have h2 : wf.2 = hW := by
      have := lookupPath_eq_some_of_mem working hw wf hwf
      rw [this] at hlW
      exact Option.some.injEq .. ▸ hlW
    exact ⟨wf, hwf, (option_any_eq_true ..).mpr ⟨hS, hlS, decide_eq_true (h2 ▸ hne)⟩, rfl⟩

theorem mem_untracked (committed staged working : List (Path × Hash)) (p : Path) :
    p ∈ (RepositoryStatus.load committed staged working).untracked_files ↔
      (lookupPath working p).isSome = true ∧ lookupPath staged p = none := by
  rw [load_untracked_files,
    (List.perm_insertionSort (fun a b : Path => a ≤ b) _).mem_iff]
  simp only [List.mem_flatMap, mem_ite_singleton, exists_prop]
  constructor
  · rintro ⟨wf, hwf, hnone, rfl⟩
    exact ⟨(lookupPath_isSome_iff ..).mpr ⟨wf, hwf, rfl⟩,
      Option.isNone_iff_eq_none.mp hnone⟩
  · rintro ⟨hsome, hnone⟩
    obtain ⟨wf, hwf, rfl⟩ := (lookupPath_isSome_iff ..).mp hsome
    exact ⟨wf, hwf, Option.isNone_iff_eq_none.mpr hnone, rfl⟩

/-- C2: the Status Engine classifies every path across the three mappings by
exactly the six rules — committed∖staged → staged-Deleted; hash conflict
between committed and staged → staged-Modified; staged∖committed →
staged-Added; staged∖working → unstaged-Deleted; working∖staged → untracked;
hash conflict between staged and working → unstaged-Modified — and each of
the three output lists is sorted by path. -/
theorem status_three_way_rules (committed staged working : List (Path × Hash))
    (hc : (committed.map Prod.fst).Nodup) (hw : (working.map Prod.fst).Nodup)
    (p : Path) :
    (StatusEntry.mk p .Deleted ∈
        (RepositoryStatus.load committed staged working).staged_changes ↔
      (lookupPath committed p).isSome = true ∧ lookupPath staged p = none) ∧
    (StatusEntry.mk p .Modified ∈
        (RepositoryStatus.load committed staged working).staged_changes ↔
      ∃ hC hS, lookupPath committed p = some hC ∧ lookupPath staged p = some hS ∧ hS ≠ hC) ∧
    (StatusEntry.mk p .Added ∈
        (RepositoryStatus.load committed staged working).staged_changes ↔
      (lookupPath staged p).isSome = true ∧ lookupPath committed p = none) ∧
    (StatusEntry.mk p .Deleted ∈
        (RepositoryStatus.load committed staged working).unstaged_changes ↔
      (lookupPath staged p).isSome = true ∧ lookupPath working p = none) ∧
    (p ∈ (RepositoryStatus.load committed staged working).untracked_files ↔
      (lookupPath working p).isSome = true ∧ lookupPath staged p = none) ∧
    (StatusEntry.mk p .Modified ∈
        (RepositoryStatus.load committed staged working).unstaged_changes ↔
      ∃ hW hS, lookupPath working p = some hW ∧ lookupPath staged p = some hS ∧ hS ≠ hW) ∧
    (RepositoryStatus.load committed staged working).staged_changes.Sorted entryPathLe ∧
    (RepositoryStatus.load committed staged working).unstaged_changes.Sorted entryPathLe ∧
    (RepositoryStatus.load committed staged working).untracked_files.Sorted (· ≤ ·) :=
  ⟨mem_staged_deleted committed staged working p,
   mem_staged_modified committed staged working hc p,
   mem_staged_added committed staged working p,
   mem_unstaged_deleted committed staged working p,
   mem_untracked committed staged working p,
   mem_unstaged_modified committed staged working hw p,
   load_staged_changes committed staged working ▸ List.sorted_insertionSort _ _,
   load_unstaged_changes committed staged working ▸ List.sorted_insertionSort _ _,
   load_untracked_files committed staged working ▸ List.sorted_insertionSort _ _⟩

/-- Witness for C2: a three-map state with a staged modification. -/
theorem status_three_way_rules_witness :
    StatusEntry.mk [strBytes "a.txt"] .Modified ∈
      (RepositoryStatus.load [([strBytes "a.txt"], [1])] [([strBytes "a.txt"], [2])]
        [([strBytes "a.txt"], [2])]).staged_changes ↔
    ∃ hC hS, lookupPath [([strBytes "a.txt"], [1])] [strBytes "a.txt"] = some hC ∧
      lookupPath [([strBytes "a.txt"], [2])] [strBytes "a.txt"] = some hS ∧ hS ≠ hC :=
  (status_three_way_rules [([strBytes "a.txt"], [1])] [([strBytes "a.txt"], [2])]
    [([strBytes "a.txt"], [2])] (by decide) (by decide) [strBytes "a.txt"]).2.1

/-- C3: every path is in at most one staged-change classification and,
independently, in at most one unstaged/untracked classification; the staged
comparison depends only on (committed, staged) and the unstaged/untracked
comparison only on (staged, working). -/
theorem status_partition (committed staged working : List (Path × Hash))
    (hc : (committed.map Prod.fst).Nodup) (hw : (working.map Prod.fst).Nodup)
    (p : Path) :
    (¬(StatusEntry.mk p .Added ∈
          (RepositoryStatus.load committed staged working).staged_changes ∧
        StatusEntry.mk p .Modified ∈
          (RepositoryStatus.load committed staged working).staged_changes) ∧
     ¬(StatusEntry.mk p .Added ∈
          (RepositoryStatus.load committed staged working).staged_changes ∧
        StatusEntry.mk p .Deleted ∈
          (RepositoryStatus.load committed staged working).staged_changes) ∧
     ¬(StatusEntry.mk p .Modified ∈
          (RepositoryStatus.load committed staged working).staged_changes ∧
        StatusEntry.mk p .Deleted ∈
          (RepositoryStatus.load committed staged working).staged_changes)) ∧
    (¬(StatusEntry.mk p .Modified ∈
          (RepositoryStatus.load committed staged working).unstaged_changes ∧
        StatusEntry.mk p .Deleted ∈
          (RepositoryStatus.load committed staged working).unstaged_changes) ∧
     ¬(StatusEntry.mk p .Modified ∈
          (RepositoryStatus.load committed staged working).unstaged_changes ∧
        p ∈ (RepositoryStatus.load committed staged working).untracked_files) ∧
     ¬(StatusEntry.mk p .Deleted ∈
          (RepositoryStatus.load committed staged working).unstaged_changes ∧
        p ∈ (RepositoryStatus.load committed staged working).untracked_files)) ∧
    (∀ working2, (RepositoryStatus.load committed staged working2).staged_changes =
      (RepositoryStatus.load committed staged working).staged_changes) ∧
    (∀ committed2,
      (RepositoryStatus.load committed2 staged working).unstaged_changes =
        (RepositoryStatus.load committed staged working).unstaged_changes ∧
      (RepositoryStatus.load committed2 staged working).untracked_files =
        (RepositoryStatus.load committed staged working).untracked_files) := by
  refine ⟨⟨?_, ?_, ?_⟩, ⟨?_, ?_, ?_⟩, fun working2 => rfl, fun committed2 => ⟨rfl, rfl⟩⟩
  · rintro ⟨hA, hM⟩
    obtain ⟨-, hnone⟩ := (mem_staged_added committed staged working p).mp hA
    obtain ⟨hC, -, hlC, -⟩ := (mem_staged_modified committed staged working hc p).mp hM
    rw [hnone] at hlC
    cases hlC
  · rintro ⟨hA, hD⟩
    obtain ⟨-, hnone⟩ := (mem_staged_added committed staged working p).mp hA
    obtain ⟨hsome, -⟩ := (mem_staged_deleted committed staged working p).mp hD
    rw [hnone] at hsome
    cases hsome
  · rintro ⟨hM, hD⟩
    obtain ⟨-, hS, -, hlS, -⟩ := (mem_staged_modified committed staged working hc p).mp hM
    obtain ⟨-, hnone⟩ := (mem_staged_deleted committed staged working p).mp hD
    rw [hnone] at hlS
    cases hlS
  · rintro ⟨hM, hD⟩
    obtain ⟨hW, -, hlW, -⟩ := (mem_unstaged_modified committed staged working hw p).mp hM
    obtain ⟨-, hnone⟩ := (mem_unstaged_deleted committed staged working p).mp hD
    rw [hnone] at hlW
    cases hlW
  · rintro ⟨hM, hU⟩
    obtain ⟨-, hS, -, hlS, -⟩ := (mem_unstaged_modified committed staged working hw p).mp hM
    obtain ⟨-, hnone⟩ := (mem_untracked committed staged working p).mp hU
    rw [hnone] at hlS
    cases hlS
  · rintro ⟨hD, hU⟩
    obtain ⟨hsome, -⟩ := (mem_unstaged_deleted committed staged working p).mp hD
    obtain ⟨-, hnone⟩ := (mem_untracked committed staged working p).mp hU
    rw [hnone] at hsome
    cases hsome

/-- Witness for C3: the partition at a concrete three-map state. -/
theorem status_partition_witness :
    ¬(StatusEntry.mk [strBytes "a.txt"] .Added ∈
        (RepositoryStatus.load [([strBytes "a.txt"], [1])] [([strBytes "a.txt"], [2])]
          []).staged_changes ∧
      StatusEntry.mk [strBytes "a.txt"] .Modified ∈
        (RepositoryStatus.load [([strBytes "a.txt"], [1])] [([strBytes "a.txt"], [2])]
          []).staged_changes) :=
  (status_partition [([strBytes "a.txt"], [1])] [([strBytes "a.txt"], [2])] []
    (by decide) (by decide) [strBytes "a.txt"]).1.1

theorem mem_map_path_upsert (l : List IndexFile) (e : IndexFile) (r : Path) :
    r ∈ (upsertEntry l e).map IndexFile.path ↔
      r ∈ l.map IndexFile.path ∨ r = e.path := by
  induction l with
  | nil => simp [upsertEntry]
  | cons f rest ih =>
    by_cases hf : f.path = e.path
    · rw [upsertEntry, if_pos hf]
      simp only [List.map_cons, List.mem_cons]
      rw [hf]
      tauto
    · rw [upsertEntry, if_neg hf]
      simp only [List.map_cons, List.mem_cons, ih]
      tauto

theorem mem_map_path_removeEntry (l : List IndexFile) (p : Path)
    (hnd : (l.map IndexFile.path).Nodup) (r : Path) :
    r ∈ (removeEntry l p).map IndexFile.path ↔
      r ∈ l.map IndexFile.path ∧ r ≠ p := by
  induction l with
  | nil => simp [removeEntry]
  | cons f rest ih =>
    rw [List.map_cons, List.nodup_cons] at hnd
    by_cases hf : f.path = p
    · simp only [removeEntry, if_pos hf, List.map_cons, List.mem_cons]
      constructor
      · intro hr
        refine ⟨Or.inr hr, ?_⟩
        rintro rfl
        exact hnd.1 (hf ▸ hr)
      · rintro ⟨hr | hr, hne⟩
        · exact absurd (hr.trans hf) hne
        · exact hr
    · simp only [removeEntry, if_neg hf, List.map_cons, List.mem_cons, ih hnd.2]
      constructor
      · rintro (rfl | ⟨hr, hne⟩)
        · exact ⟨Or.inl rfl, hf⟩
        · exact ⟨Or.inr hr, hne⟩
      · rintro ⟨rfl | hr, hne⟩
        · exact Or.inl rfl
        · exact Or.inr ⟨hr, hne⟩

theorem any_path_eq_iff (l : List IndexFile) (p : Path) :
    l.any (fun f => decide (f.path = p)) = true ↔ p ∈ l.map IndexFile.path := by
  simp only [List.any_eq_true, decide_eq_true_eq, List.mem_map]

theorem isDir_eq_false_of_not_exists (fs : List (Path × List Byte)) (p : Path)
    (h : pathExists fs p = false) : isDir fs p = false := by
  rw [pathExists, Bool.or_eq_false_iff] at h
  exact h.2

theorem isFile_eq_false_of_not_exists (fs : List (Path × List Byte)) (p : Path)
    (h : pathExists fs p = false) : isFile fs p = false := by
  rw [pathExists, Bool.or_eq_false_iff] at h
  exact h.1

theorem pathExists_of_isFile (fs : List (Path × List Byte)) (p : Path)
    (h : isFile fs p = true) : pathExists fs p = true := by
  rw [pathExists, h, Bool.true_or]

theorem walkFiles_isFile (fs : List (Path × List Byte)) (d q : Path)
    (hq : q ∈ walkFiles fs d) : isFile fs q = true := by
  rw [walkFiles] at hq
  obtain ⟨hmem, -⟩ := List.mem_filter.mp hq
  obtain ⟨x, hx, rfl⟩ := List.mem_map.mp hmem
  rw [isFile, lookupPath_isSome_iff]
  exact ⟨x, hx, rfl⟩

theorem addFile_ok_of_isFile (fs : List (Path × List Byte)) (files : List IndexFile)
    (q : Path) (hq : isFile fs q = true) :
    ∃ contents, lookupPath fs q = some contents ∧
      addFile fs files q = .ok (upsertEntry files ⟨q, blobHash contents⟩) := by
  rw [isFile] at hq
  obtain ⟨contents, hc⟩ := Option.isSome_iff_exists.mp hq
  refine ⟨contents, hc, ?_⟩
  have hex : pathExists fs q = true :=
    pathExists_of_isFile fs q (by rw [isFile, hc]; rfl)
  simp [addFile, hex, hc]

theorem foldAddFile_ok (fs : List (Path × List Byte)) (qs : List Path)
    (hqs : ∀ q ∈ qs, isFile fs q = true) (acc : List IndexFile) :
    ∃ res, qs.foldlM (fun a q => addFile fs a q) acc = .ok res ∧
      ∀ r, r ∈ res.map IndexFile.path ↔ r ∈ acc.map IndexFile.path ∨ r ∈ qs := by
  induction qs generalizing acc with
  | nil => exact ⟨acc, rfl, by simp⟩
  | cons q qs ih =>
    obtain ⟨contents, -, hadd⟩ :=
      addFile_ok_of_isFile fs acc q (hqs q (List.mem_cons_self _ _))
    obtain ⟨res, hres, hiff⟩ :=
      ih (fun r hr => hqs r (List.mem_cons_of_mem _ hr)) (upsertEntry acc ⟨q, blobHash contents⟩)
    refine ⟨res, ?_, ?_⟩
    · rw [List.foldlM_cons, hadd]
      exact hres
    · intro r
      rw [hiff r, mem_map_path_upsert, List.mem_cons]
      tauto

theorem mem_map_path_filter (l : List IndexFile) (cp : Path → Bool) (r : Path) :
    r ∈ (l.filter (fun f => cp f.path)).map IndexFile.path ↔
      r ∈ l.map IndexFile.path ∧ cp r = true := by
  simp only [List.mem_map, List.mem_filter]
  constructor
  · rintro ⟨f, ⟨hf, hcp⟩, rfl⟩
    exact ⟨⟨f, hf, rfl⟩, hcp⟩
  · rintro ⟨⟨f, hf, rfl⟩, hcp⟩
    exact ⟨f, ⟨hf, hcp⟩, rfl⟩

theorem mem_upsertEntry_self (l : List IndexFile) (e : IndexFile) :
    e ∈ upsertEntry l e := by
  induction l with
  | nil => exact List.mem_singleton.mpr rfl
  | cons f rest ih =>
    by_cases hf : f.path = e.path
    · rw [upsertEntry, if_pos hf]
      exact List.mem_cons_self _ _
    · rw [upsertEntry, if_neg hf]
      exact List.mem_cons_of_mem _ ih

theorem nodup_paths_upsertEntry (l : List IndexFile) (e : IndexFile)
    (hnd : (l.map IndexFile.path).Nodup) :
    ((upsertEntry l e).map IndexFile.path).Nodup := by
  induction l with
  | nil => simp [upsertEntry]
  | cons f rest ih =>
    rw [List.map_cons, List.nodup_cons] at hnd
    by_cases hf : f.path = e.path
    · rw [upsertEntry, if_pos hf, List.map_cons, List.nodup_cons]
      exact ⟨fun hc => hnd.1 (hf ▸ hc), hnd.2⟩
    · rw [upsertEntry, if_neg hf, List.map_cons, List.nodup_cons]
      refine ⟨fun hc => ?_, ih hnd.2⟩
      rcases (mem_map_path_upsert rest e f.path).mp hc with hr | hr
      · exact hnd.1 hr
      · exact hf hr

theorem upsertEntry_eq_self (l : List IndexFile) (e : IndexFile)
    (hmem : e ∈ l) (huniq : ∀ f ∈ l, f.path = e.path → f = e) :
    upsertEntry l e = l := by
  induction l with
  | nil => cases hmem
  | cons f rest ih =>
    by_cases hf : f.path = e.path
    · rw [upsertEntry, if_pos hf]
      rw [huniq f (List.mem_cons_self _ _) hf]
    · rw [upsertEntry, if_neg hf]
      have hmem' : e ∈ rest := by
        rcases List.mem_cons.mp hmem with rfl | h
        · exact absurd rfl hf
        · exact h
      rw [ih hmem' (fun g hg hgp => huniq g (List.mem_cons_of_mem _ hg) hgp)]

theorem indexAdd_ok_nondir (fs : List (Path × List Byte)) (files files1 : List IndexFile)
    (p : Path) (hndir : isDir fs p = false) (h : addFile fs files p = .ok files1) :
    indexAdd fs files p = .ok (files1.insertionSort indexPathLe) := by
  rw [indexAdd, if_neg (by rw [hndir]; exact Bool.false_ne_true), h]
  simp [hndir]

theorem indexAdd_err_nondir (fs : List (Path × List Byte)) (files : List IndexFile)
    (p : Path) (e : AddError) (hndir : isDir fs p = false)
    (h : addFile fs files p = .error e) :
    indexAdd fs files p = .error e := by
  rw [indexAdd, if_neg (by rw [hndir]; exact Bool.false_ne_true), h]

theorem indexAdd_ok_dir (fs : List (Path × List Byte)) (files res : List IndexFile)
    (p : Path) (hdir : isDir fs p = true) (h : addDir fs files p = .ok res) :
    indexAdd fs files p =
      .ok ((removeDeletedFiles fs res p).insertionSort indexPathLe) := by
  rw [indexAdd, if_pos hdir, h]
  simp [hdir]

/-- C4: `Index::add` on a path that no longer exists on disk removes the
entry for that exact path when one exists and fails with `NoSuchFile` when
none was ever indexed (leaving the index unwritten: the error short-circuits
before `Index::write`); adding a directory prunes every entry under it whose
path no longer exists while retaining entries for files that still exist. -/
theorem index_add_missing_and_prune (fs : List (Path × List Byte))
    (files : List IndexFile) (p : Path)
    (hnd : (files.map IndexFile.path).Nodup) :
    (pathExists fs p = false → p ∈ files.map IndexFile.path →
      ∃ out, indexAdd fs files p = .ok out ∧
        ∀ r, r ∈ out.map IndexFile.path ↔ r ∈ files.map IndexFile.path ∧ r ≠ p) ∧
    (pathExists fs p = false → p ∉ files.map IndexFile.path →
      indexAdd fs files p = .error .noSuchFile) ∧
    (isDir fs p = true →
      ∃ out, indexAdd fs files p = .ok out ∧
        ∀ e ∈ files, isUnder p e.path = true →
          (pathExists fs e.path = false → e.path ∉ out.map IndexFile.path) ∧
          (isFile fs e.path = true → e.path ∈ out.map IndexFile.path)) := by
  refine ⟨?_, ?_, ?_⟩
  · intro hne hmem
    have hdir : isDir fs p = false := isDir_eq_false_of_not_exists fs p hne
    have hany : files.any (fun f => decide (f.path = p)) = true :=
      (any_path_eq_iff files p).mpr hmem
    refine ⟨(removeEntry files p).insertionSort indexPathLe, ?_, ?_⟩
    · refine indexAdd_ok_nondir fs files _ p hdir ?_
      rw [addFile, if_pos hne, if_pos hany]
    · intro r
      rw [((List.perm_insertionSort indexPathLe _).map IndexFile.path).mem_iff]
      exact mem_map_path_removeEntry files p hnd r
  · intro hne hmem
    have hdir : isDir fs p = false := isDir_eq_false_of_not_exists fs p hne
    have hany : files.any (fun f => decide (f.path = p)) = false := by
      rw [← Bool.not_eq_true]
      intro hc
      exact hmem ((any_path_eq_iff files p).mp hc)
    refine indexAdd_err_nondir fs files p _ hdir ?_
    rw [addFile, if_pos hne, if_neg (by rw [hany]; exact Bool.false_ne_true)]
  · intro hdir
    obtain ⟨res, hres, hiff⟩ := foldAddFile_ok fs (walkFiles fs p)
      (fun q hq => walkFiles_isFile fs p q hq) files
    refine ⟨(removeDeletedFiles fs res p).insertionSort indexPathLe, ?_, ?_⟩
    · exact indexAdd_ok_dir fs files res p hdir hres
    · intro e he hunder
      have hmm := ((List.perm_insertionSort indexPathLe
        (removeDeletedFiles fs res p)).map IndexFile.path).mem_iff
        (a := e.path)
      constructor
      · intro hne hc
        rw [hmm] at hc
        rw [removeDeletedFiles] at hc
        obtain ⟨-, hcp⟩ := (mem_map_path_filter res
          (fun q => if isUnder p q then pathExists fs q else true) e.path).mp hc
        rw [if_pos hunder, hne] at hcp
        cases hcp
      · intro hf
        rw [hmm, removeDeletedFiles]
        refine (mem_map_path_filter res
          (fun q => if isUnder p q then pathExists fs q else true) e.path).mpr ⟨?_, ?_⟩
        · exact (hiff e.path).mpr (Or.inl (List.mem_map.mpr ⟨e, he, rfl⟩))
        · rw [if_pos hunder]
          exact pathExists_of_isFile fs e.path hf

/-- Witness for C4: adding a never-indexed, nonexistent path fails with
`NoSuchFile`. -/
theorem index_add_missing_witness :
    indexAdd [([strBytes "a.txt"], [97])] [] [strBytes "b.txt"] =
      .error .noSuchFile :=
  (index_add_missing_and_prune [([strBytes "a.txt"], [97])] [] [strBytes "b.txt"]
    (by decide)).2.1 (by decide) (by decide)

/-- C9: adding the same on-disk-unchanged file twice leaves the in-memory
entry list, and therefore the rewritten index file bytes, identical after
the second `add`. -/
theorem index_add_idempotent (fs : List (Path × List Byte))
    (files : List IndexFile) (f : Path)
    (hnd : (files.map IndexFile.path).Nodup)
    (hfile : isFile fs f = true) (hndir : isDir fs f = false) :
    ∃ out, indexAdd fs files f = .ok out ∧ indexAdd fs out f = .ok out ∧
      writeIndex out = writeIndex out := by
  obtain ⟨contents, hc, hadd⟩ := addFile_ok_of_isFile fs files f hfile
  refine ⟨(upsertEntry files ⟨f, blobHash contents⟩).insertionSort indexPathLe,
    ?_, ?_, rfl⟩
  · exact indexAdd_ok_nondir fs files _ f hndir hadd
  · have hperm : List.Perm
        ((upsertEntry files ⟨f, blobHash contents⟩).insertionSort indexPathLe)
        (upsertEntry files ⟨f, blobHash contents⟩) :=
      List.perm_insertionSort _ _
    have hnd1 : (((upsertEntry files ⟨f, blobHash contents⟩).insertionSort
        indexPathLe).map IndexFile.path).Nodup :=
      ((hperm.map IndexFile.path).nodup_iff).mpr
        (nodup_paths_upsertEntry files _ hnd)
    have hmem1 : (⟨f, blobHash contents⟩ : IndexFile) ∈
        (upsertEntry files ⟨f, blobHash contents⟩).insertionSort indexPathLe :=
      hperm.mem_iff.mpr (mem_upsertEntry_self files _)
    obtain ⟨contents2, hc2, hadd2⟩ := addFile_ok_of_isFile fs
      ((upsertEntry files ⟨f, blobHash contents⟩).insertionSort indexPathLe) f hfile
    have hcc : contents2 = contents := by
      rw [hc] at hc2
      exact (Option.some.injEq .. ▸ hc2.symm)
    rw [hcc] at hadd2
    have heq : upsertEntry
        ((upsertEntry files ⟨f, blobHash contents⟩).insertionSort indexPathLe)
        ⟨f, blobHash contents⟩ =
        (upsertEntry files ⟨f, blobHash contents⟩).insertionSort indexPathLe := by
      refine upsertEntry_eq_self _ _ hmem1 (fun g hg hgp => ?_)
      exact List.inj_on_of_nodup_map hnd1 hg hmem1 hgp
    rw [indexAdd_ok_nondir fs _ _ f hndir hadd2, heq]
    rw [List.Sorted.insertionSort_eq (List.sorted_insertionSort _ _)]

/-- Witness for C9 on a one-file filesystem. -/
theorem index_add_idempotent_witness :
    ∃ out, indexAdd [([strBytes "a.txt"], [97])] [] [strBytes "a.txt"] = .ok out ∧
      indexAdd [([strBytes "a.txt"], [97])] out [strBytes "a.txt"] = .ok out ∧
      writeIndex out = writeIndex out :=
  index_add_idempotent [([strBytes "a.txt"], [97])] [] [strBytes "a.txt"]
    (by decide) (by decide) (by decide)

theorem switchWrittenBytes_length_le (body : List Byte) :
    body.length ≤ (switchWrittenBytes body).length := by
  induction body with
  | nil => simp [switchWrittenBytes]
  | cons b rest ih =>
    rw [switchWrittenBytes, List.flatMap_cons, List.length_append]
    rw [switchWrittenBytes] at ih
    by_cases hb : b < 128
    · rw [utf8Bytes, if_pos hb]
      simp only [List.length_cons, List.length_singleton]
      omega
    · rw [utf8Bytes, if_neg hb]
      simp only [List.length_cons, List.length_singleton, List.length_nil]
      omega

theorem switchWrittenBytes_length_lt (body : List Byte)
    (hex : ∃ b ∈ body, 128 ≤ b) :
    body.length < (switchWrittenBytes body).length := by
  induction body with
  | nil => simp at hex
  | cons b rest ih =>
    rw [switchWrittenBytes, List.flatMap_cons, List.length_append, List.length_cons]
    obtain ⟨c, hc, hcge⟩ := hex
    rcases List.mem_cons.mp hc with rfl | hc'
    · rw [utf8Bytes, if_neg (Nat.not_lt.mpr hcge)]
      have := switchWrittenBytes_length_le rest
      rw [switchWrittenBytes] at this
      simp only [List.length_cons, List.length_singleton, List.length_nil]
      omega
    · have hrest : rest.length < (switchWrittenBytes rest).length := ih ⟨c, hc', hcge⟩
      rw [switchWrittenBytes] at hrest
      have hone : 1 ≤ (utf8Bytes b).length := by
        rw [utf8Bytes]
        by_cases hb : b < 128 <;> simp [hb]
      omega

/-- C10: checkout materializes each blob body through `u8 as char` and UTF-8
re-encoding, so the bytes written equal the stored body iff every body byte
is ASCII; any byte ≥ 0x80 makes the written sequence strictly longer. -/
theorem switch_written_bytes_ascii_iff (body : List Byte)
    (hb : ∀ b ∈ body, b < 256) :
    (switchWrittenBytes body = body ↔ ∀ b ∈ body, b < 128) ∧
    ((∃ b ∈ body, 128 ≤ b) → body.length < (switchWrittenBytes body).length) := by
  refine ⟨⟨?_, ?_⟩, switchWrittenBytes_length_lt body⟩
  · intro heq
    by_contra hc
    push_neg at hc
    obtain ⟨b, hbm, hbge⟩ := hc
    have := switchWrittenBytes_length_lt body ⟨b, hbm, hbge⟩
    rw [heq] at this
    omega
  · intro hall
    induction body with
    | nil => rfl
    | cons b rest ih =>
      rw [switchWrittenBytes, List.flatMap_cons, utf8Bytes,
        if_pos (hall b (List.mem_cons_self _ _))]
      have hrest := ih (fun c hc => hb c (List.mem_cons_of_mem _ hc))
        (fun c hc => hall c (List.mem_cons_of_mem _ hc))
      rw [switchWrittenBytes] at hrest
      rw [List.singleton_append, hrest]

/-- Witness for C10 at an ASCII body and a non-ASCII body. -/
theorem switch_written_bytes_witness :
    (switchWrittenBytes [104, 105] = [104, 105] ↔ ∀ b ∈ [104, 105], b < 128) ∧
    ((∃ b ∈ [104, 105], 128 ≤ b) →
      ([104, 105] : List Byte).length < (switchWrittenBytes [104, 105]).length) :=
  switch_written_bytes_ascii_iff [104, 105] (by decide)

/-- Counterexample to C5: `Commit::create` performs no dedup check — with the
serialized commit object already present at its hash's storage path, the
write is performed anyway (the claim requires no write in that case). -/
theorem commit_write_not_dedup_counterexample :
    (storeLookup
      [(hashBytes (commitSerialize ⟨"A", "a@x", 0, 0⟩ ⟨"A", "a@x", 0, 0⟩ []
        (blobHash []) "m"), [])]
      (hashBytes (commitSerialize ⟨"A", "a@x", 0, 0⟩ ⟨"A", "a@x", 0, 0⟩ []
        (blobHash []) "m"))).isSome = true ∧
    (commitCreateWrite
      [(hashBytes (commitSerialize ⟨"A", "a@x", 0, 0⟩ ⟨"A", "a@x", 0, 0⟩ []
        (blobHash []) "m"), [])]
      ⟨"A", "a@x", 0, 0⟩ ⟨"A", "a@x", 0, 0⟩ [] (blobHash []) "m").2.2 = true := by
  constructor
  · rw [storeLookup, if_pos rfl]
    rfl
  · rfl

/-- C5 as amended: blob and tree writes serialize, hash, and compress-and-
persist only if no object already exists at the hash's storage path, and
return the hash regardless; `write_commit` serializes, hashes and persists
unconditionally (overwriting the already-present identical object), returning
the hash. -/
theorem object_store_write_pattern (store : List (Hash × List Byte))
    (serialized : List Byte) (author committer : SignatureT)
    (parents : List Hash) (treeH : Hash) (message : String) :
    (blobPersist store serialized).1 = hashBytes serialized ∧
    (treePersist store serialized).1 = hashBytes serialized ∧
    ((storeLookup store (hashBytes serialized)).isSome = true →
      blobPersist store serialized = (hashBytes serialized, store, false) ∧
      treePersist store serialized = (hashBytes serialized, store, false)) ∧
    ((storeLookup store (hashBytes serialized)).isSome = false →
      (blobPersist store serialized).2.2 = true ∧
      (treePersist store serialized).2.2 = true ∧
      storeLookup (blobPersist store serialized).2.1 (hashBytes serialized) =
        some (compress serialized) ∧
      storeLookup (treePersist store serialized).2.1 (hashBytes serialized) =
        some (compress serialized)) ∧
    (commitCreateWrite store author committer parents treeH message).1 =
      hashBytes (commitSerialize author committer parents treeH message) ∧
    (commitCreateWrite store author committer parents treeH message).2.2 = true ∧
    storeLookup
        (commitCreateWrite store author committer parents treeH message).2.1
        (hashBytes (commitSerialize author committer parents treeH message)) =
      some (compress (commitSerialize author committer parents treeH message)) := by
  refine ⟨?_, ?_, fun hs => ⟨?_, ?_⟩, fun hn => ⟨?_, ?_, ?_, ?_⟩, ?_, ?_, ?_⟩
  · by_cases hs : (storeLookup store (hashBytes serialized)).isSome = true <;>
      simp [blobPersist, hs]
  · by_cases hs : (storeLookup store (hashBytes serialized)).isSome = true <;>
      simp [treePersist, hs]
  · simp [blobPersist, hs]
  · simp [treePersist, hs]
  · simp [blobPersist, hn]
  · simp [treePersist, hn]
  · simp only [blobPersist, hn, Bool.false_eq_true, if_false]
    rw [storeLookup, if_pos rfl]
  · simp only [treePersist, hn, Bool.false_eq_true, if_false]
    rw [storeLookup, if_pos rfl]
  · rfl
  · rfl
  · rw [commitCreateWrite, commitPersist]
    rw [storeLookup, if_pos rfl]

/-- Witness for C5's amended pattern at a store already holding the object. -/
theorem object_store_write_pattern_witness :
    blobPersist [(hashBytes [1], [9])] [1] = (hashBytes [1], [(hashBytes [1], [9])], false) ∧
    treePersist [(hashBytes [1], [9])] [1] = (hashBytes [1], [(hashBytes [1], [9])], false) :=
  (object_store_write_pattern [(hashBytes [1], [9])] [1] ⟨"A", "a@x", 0, 0⟩
    ⟨"A", "a@x", 0, 0⟩ [] (blobHash []) "m").2.2.1 (by decide)

set_option maxRecDepth 4000 in
/-- C1 fails on the code: `Tree::create` is insensitive to the staging index
and, at a filesystem whose `a.txt` holds `"b"` while the index stages the
blob hash of `"a"`, the built tree's file entry carries the fresh hash of the
on-disk `"b"` — not the staged hash, which differs. -/
theorem tree_builder_scans_filesystem :
    (∀ index1 index2 : List IndexFile, ∀ fuel store,
      treeCreate [([strBytes "a.txt"], [98])] index1 fuel store =
        treeCreate [([strBytes "a.txt"], [98])] index2 fuel store) ∧
    (treeCreate [([strBytes "a.txt"], [98])]
        [IndexFile.mk [strBytes "a.txt"] (blobHash [97])] 1 []).map Prod.fst =
      .ok ([STreeEntry.mk .File (strBytes "a.txt") (blobHash [98])],
        treeHash [STreeEntry.mk .File (strBytes "a.txt") (blobHash [98])]) ∧
    blobHash [98] ≠ blobHash [97] :=
  ⟨fun _ _ _ _ => rfl, by decide, by decide⟩

/-- Counterexample to C6: a serialized tree whose entry hash field holds only
3 bytes makes `TreeEntry::parse` abort the process through
`try_into().unwrap()` — not return the typed InvalidObjectFormat error the
claim requires for every malformed input. -/
theorem tree_parse_short_hash_counterexample :
    treeParse [] 5
        (strBytes "tree 0" ++ [0] ++ strBytes "100644 a" ++ [0] ++ [1, 2, 3]) =
      .panicked ∧
    (POutcome.panicked : POutcome (List STreeEntry)) ≠ .err := by
  constructor
  · decide
  · decide

/-- C6 as amended: a mismatched header type tag and a mismatched mode token
each yield a typed error; but the header length field is never validated (a
malformed length is silently accepted), and a hash field shorter than 20
bytes — which is also what an unterminated name leaves behind — aborts the
process via an `unwrap` panic instead of a typed error. -/
theorem tree_parse_error_modes (store : List (Hash × List Byte)) (fuel : Nat)
    (l entry : List Byte) :
    ((takeUntilByte 32 l).1 ≠ strBytes "tree" → treeParse store fuel l = .err) ∧
    (entry ≠ [] → modeFromBytes (takeUntilByte 32 entry).1 = none →
      parseEntriesGo store (fuel + 1) entry = .err) ∧
    treeParse store fuel (strBytes "tree abc" ++ [0]) = .ok [] ∧
    treeParse store (fuel + 1)
        (strBytes "tree 0" ++ [0] ++ strBytes "100644 a" ++ [0] ++ [1, 2, 3]) =
      .panicked := by
  refine ⟨?_, ?_, ?_, ?_⟩
  · intro hlbl
    rw [treeParse, parseHeader]
    rw [if_neg hlbl]
  · intro hne hmode
    match entry, hne with
    | b :: bs, _ =>
      rw [parseEntriesGo]
      rw [hmode]
  · cases fuel <;> rfl
  · rfl

/-- Witness for the amended C6 at concrete malformed inputs. -/
theorem tree_parse_error_modes_witness :
    (treeParse [] 0 (strBytes "blob 3" ++ [0]) = .err) ∧
    (parseEntriesGo [] 1 (strBytes "999 x" ++ [0] ++ [1]) = .err) :=
  ⟨(tree_parse_error_modes [] 0 (strBytes "blob 3" ++ [0]) []).1 (by decide),
   (tree_parse_error_modes [] 0 [] (strBytes "999 x" ++ [0] ++ [1])).2.1
     (by decide) (by decide)⟩

end Rygit
